import Mathlib

/-!
# Verification of the fuels-rs abigen core

A shallow embedding of the code-generation core of the `fuels-rs` repository:

* `packages/fuels-core/src/code_gen/abigen.rs` — schema normalization
  (`Abigen::new`), custom-type discovery (`Abigen::get_custom_types`,
  `Abigen::get_inner_custom_properties`, `is_custom_type`) and struct
  emission (`Abigen::abi_structs`);
* `packages/fuels-core/src/types.rs` — type expansion (`expand_type`) and
  the `From<Token> for ParamType` conversion.

Rust `HashMap<String, Property>` registries are modelled as insertion-ordered
association lists looked up by first match; code that can panic (`unwrap`,
`expect`, out-of-bounds indexing) is modelled in the `Option` monad, and code
returning `Result` is modelled in `Except`.
-/

/-! ## String helpers

Rust's `str::contains` (substring containment) and `str::starts_with`,
modelled over the character list of a `String`. -/

/-- Substring test over character lists: `pat` occurs somewhere inside `s`.
Mirrors Rust `str::contains` for plain (non-pattern) needles. -/
def charsContain (pat : List Char) : List Char → Bool
  | [] => pat.isEmpty
  | c :: t => pat.isPrefixOf (c :: t) || charsContain pat t

/-- Rust `haystack.contains(needle)`. -/
def strContains (haystack needle : String) : Bool :=
  charsContain needle.data haystack.data

/-- Rust `s.starts_with(p)`. -/
def strStartsWith (p s : String) : Bool :=
  p.data.isPrefixOf s.data

/-! ## Schema model (`fuels-types`)

The raw JSON ABI as deserialized by serde: `Property` (a schema node with an
optional component list) and `Function`; `JsonABI = Vec<Function>`.  The
`Function` struct of `fuels-types` is named `AbiFunction` here because
`Function` is taken in Lean. -/

/-- `fuels_types::Property`: a raw schema node (`name`, `type` and optional
`components`). -/
inductive Property : Type where
  | mk (name : String) (type_field : String) (components : Option (List Property)) : Property

/-- The `name` field of a `Property`. -/
def Property.name : Property → String
  | .mk n _ _ => n

/-- The `type` field of a `Property` (serde renames it to `type_field`). -/
def Property.type_field : Property → String
  | .mk _ t _ => t

/-- The `components` field of a `Property`. -/
def Property.components : Property → Option (List Property)
  | .mk _ _ cs => cs

/-- `fuels_types::Function`: one contract function of the ABI. -/
structure AbiFunction where
  type_field : String
  name : String
  inputs : List Property
  outputs : List Property

/-- `fuels_types::JsonABI = Vec<Function>`. -/
abbrev JsonABI := List AbiFunction

/-! ## Keywords and custom-type classification (`abigen.rs`) -/

/-- Modelled from the spec: the struct keyword constant of
`fuels-core/src/constants.rs` (the file is not part of the corpus); §3 of the
spec writes custom struct type tags as `"struct <Name>"`. -/
def STRUCT_KEYWORD : String := "struct"

/-- Modelled from the spec: the enum keyword constant of
`fuels-core/src/constants.rs` (the file is not part of the corpus); §3 of the
spec writes custom enum type tags as `"enum <Name>"`. -/
def ENUM_KEYWORD : String := "enum"

/-- `is_custom_type` (abigen.rs, lines 39–41):
`p.type_field.contains(ENUM_KEYWORD) || p.type_field.contains(STRUCT_KEYWORD)`. -/
def is_custom_type (p : Property) : Bool :=
  strContains p.type_field ENUM_KEYWORD || strContains p.type_field STRUCT_KEYWORD

/-- Modelled from the spec: `extract_custom_type_name_from_abi_property`
(custom_types_gen.rs is not part of the corpus).  Per §3 a custom type tag is
`"struct <Name>"` or `"enum <Name>"`; extraction returns the `<Name>` after
the keyword, and fails on any other tag. -/
def extract_custom_type_name_from_abi_property (p : Property) : Option String :=
  if strStartsWith "struct " p.type_field then
    some (String.mk (p.type_field.data.drop 7))
  else if strStartsWith "enum " p.type_field then
    some (String.mk (p.type_field.data.drop 5))
  else
    none

/-! ## Registry model

The Rust registry is a `HashMap<String, Property>` populated with
`entry(name).or_insert(prop)`; it is modelled as an insertion-ordered
association list: `insertIfAbsent` appends only when the key is new, and
`lookupName` returns the first match. -/

/-- `HashMap::contains_key` on the association-list model. -/
def hasName : List (String × Property) → String → Bool
  | [], _ => false
  | (k, _) :: rest, nm => if k = nm then true else hasName rest nm

/-- `HashMap::get` on the association-list model (first match wins). -/
def lookupName : List (String × Property) → String → Option Property
  | [], _ => none
  | (k, v) :: rest, nm => if k = nm then some v else lookupName rest nm

/-- `map.entry(k).or_insert(v)`: insert only when the key is absent. -/
def insertIfAbsent (m : List (String × Property)) (k : String) (v : Property) :
    List (String × Property) :=
  if hasName m k then m else m ++ [(k, v)]

/-- Uncurried `insertIfAbsent`, for folding an insertion sequence. -/
def insFold (m : List (String × Property)) (kv : String × Property) :
    List (String × Property) :=
  insertIfAbsent m kv.1 kv.2

/-- First-match alternative on `Option`. -/
def optOr {α : Type} : Option α → Option α → Option α
  | some v, _ => some v
  | none, b => b

/-! ## Custom-type discovery (`Abigen::get_custom_types`, abigen.rs 217–282)

`get_inner_custom_properties` recursively collects every struct/enum-tagged
descendant reachable through struct/enum-tagged nodes; `innerOfList` is the
`for inner_component in …` loop body that concatenates the recursive results
over a component list.  `unwrap`/`expect` panics are modelled as `none`. -/

/-- `Abigen::get_all_properties` (abigen.rs 217–228): every input and output
`Property` across every function, function order, inputs before outputs. -/
def get_all_properties (abi : JsonABI) : List Property :=
  abi.bind fun f => f.inputs ++ f.outputs

mutual

/-- `Abigen::get_inner_custom_properties` (abigen.rs 269–282): if the property
is custom, itself plus the recursively collected customs of its components;
the `components.as_ref().unwrap()` panic on a missing component list is
modelled as `none`. -/
def get_inner_custom_properties : Property → Option (List Property)
  | .mk n t none =>
    if is_custom_type (.mk n t none) then none else some []
  | .mk n t (some cs) =>
    if is_custom_type (.mk n t (some cs)) then
      (innerOfList cs).map (Property.mk n t (some cs) :: ·)
    else some []

/-- The `for inner_prop in components { props.extend(…) }` loop of
`get_inner_custom_properties`, over a component list. -/
def innerOfList : List Property → Option (List Property)
  | [] => some []
  | c :: cs =>
    match get_inner_custom_properties c, innerOfList cs with
    | some a, some b => some (a ++ b)
    | _, _ => none

end

/-- The first loop of `Abigen::get_custom_types` (abigen.rs 237–251): walk
the flat property list; for each custom property extract its name (an
`expect` panic, modelled as `none`), insert it first-seen-wins, and collect
the inner customs of its components (an `unwrap` panic on a missing
component list, modelled as `none`).  Returns the registry so far and the
accumulated inner custom types. -/
def outerPass :
    List Property → List (String × Property) → List Property →
      Option (List (String × Property) × List Property)
  | [], m, inners => some (m, inners)
  | p :: ps, m, inners =>
    if is_custom_type p then
      match extract_custom_type_name_from_abi_property p with
      | none => none
      | some nm =>
        match p.components with
        | none => none
        | some cs =>
          match innerOfList cs with
          | none => none
          | some newInners =>
            outerPass ps (insertIfAbsent m nm p) (inners ++ newInners)
    else outerPass ps m inners

/-- The second loop of `Abigen::get_custom_types` (abigen.rs 253–263): insert
every collected inner custom type, first-seen-wins; name extraction is again
an `expect` panic modelled as `none`. -/
def innerPass :
    List Property → List (String × Property) → Option (List (String × Property))
  | [], m => some m
  | p :: ps, m =>
    if is_custom_type p then
      match extract_custom_type_name_from_abi_property p with
      | none => none
      | some nm => innerPass ps (insertIfAbsent m nm p)
    else innerPass ps m

/-- `Abigen::get_custom_types` (abigen.rs 230–266): the deduplicated
name → defining-`Property` registry of every custom type found in the ABI. -/
def get_custom_types (abi : JsonABI) : Option (List (String × Property)) :=
  match outerPass (get_all_properties abi) [] [] with
  | none => none
  | some (m, inners) => innerPass inners m

/-- The `custom_structs` field of `Abigen` (abigen.rs 64–68): the entries of
the registry whose type tag contains the struct keyword. -/
def custom_structs_of (m : List (String × Property)) : List (String × Property) :=
  m.filter fun kv => strContains kv.2.type_field STRUCT_KEYWORD

/-- The `custom_enums` field of `Abigen` (abigen.rs 69–72): the entries of
the registry whose type tag contains the enum keyword. -/
def custom_enums_of (m : List (String × Property)) : List (String × Property) :=
  m.filter fun kv => strContains kv.2.type_field ENUM_KEYWORD

/-! ## The insertion sequence and the discovery closure (analysis helpers)

`rawOuter`/`rawInner`/`rawPairs` record the `(name, property)` pairs that
`get_custom_types` attempts to insert, in traversal order, without the
deduplication; `discoverCustom` is the set of struct/enum-tagged properties
the traversal reaches (descending only into components of struct/enum-tagged
nodes), as a total function. -/

/-- The insertion attempts of the first loop of `get_custom_types`, in order,
together with the collected inner custom types. -/
def rawOuter : List Property → Option (List (String × Property) × List Property)
  | [] => some ([], [])
  | p :: ps =>
    if is_custom_type p then
      match extract_custom_type_name_from_abi_property p with
      | none => none
      | some nm =>
        match p.components with
        | none => none
        | some cs =>
          match innerOfList cs with
          | none => none
          | some newInners =>
            match rawOuter ps with
            | none => none
            | some (prs, inns) => some ((nm, p) :: prs, newInners ++ inns)
    else rawOuter ps

/-- The insertion attempts of the second loop of `get_custom_types`, in order. -/
def rawInner : List Property → Option (List (String × Property))
  | [] => some []
  | p :: ps =>
    if is_custom_type p then
      match extract_custom_type_name_from_abi_property p with
      | none => none
      | some nm =>
        match rawInner ps with
        | none => none
        | some prs => some ((nm, p) :: prs)
    else rawInner ps

/-- All insertion attempts of `get_custom_types`, in traversal order (outer
loop first, then the collected inner custom types). -/
def rawPairs (abi : JsonABI) : Option (List (String × Property)) :=
  match rawOuter (get_all_properties abi) with
  | none => none
  | some (prs, inners) =>
    match rawInner inners with
    | none => none
    | some iprs => some (prs ++ iprs)

mutual

/-- The struct/enum-tagged properties reachable from `p` by descending only
into components of struct/enum-tagged nodes — the closure the discovery
traversal of `get_custom_types` walks, as a total function (a missing
component list is treated as empty instead of failing). -/
def discoverCustom : Property → List Property
  | .mk n t none =>
    if is_custom_type (.mk n t none) then [.mk n t none] else []
  | .mk n t (some cs) =>
    if is_custom_type (.mk n t (some cs)) then
      Property.mk n t (some cs) :: discoverList cs
    else []

/-- `discoverCustom` concatenated over a component list. -/
def discoverList : List Property → List Property
  | [] => []
  | c :: cs => discoverCustom c ++ discoverList cs

end

/-- `discoverCustom` concatenated over a list of top-level properties. -/
def discoverAll : List Property → List Property
  | [] => []
  | p :: ps => discoverCustom p ++ discoverAll ps

/-- Every struct/enum-tagged property the discovery traversal of
`get_custom_types` encounters, across all functions of the ABI. -/
def chainDiscoverable (abi : JsonABI) : List Property :=
  discoverAll (get_all_properties abi)

/-! ## Struct emission (`Abigen::abi_structs`, abigen.rs 184–205) -/

/-- Modelled from the spec: `expand_custom_struct` (custom_types_gen.rs is not
part of the corpus) produces the target-language declaration for one custom
struct; the declaration is modelled abstractly by its defining `Property`
(spec §4.5: one declaration per registry entry). -/
def expand_custom_struct (p : Property) : Property := p

/-- The Sway-native passthrough filter of `abi_structs` (abigen.rs 194):
`prop.type_field.contains("ContractId") || prop.type_field.contains("Address")`. -/
def is_sway_native (p : Property) : Bool :=
  strContains p.type_field "ContractId" || strContains p.type_field "Address"

/-- The loop of `Abigen::abi_structs` (abigen.rs 190–202): walk the
`custom_structs` registry entries; skip Sway-native types
(`type_field` containing `ContractId` or `Address`); emit each not-yet-seen
struct once, recording its type tag in the `seen_struct` list. -/
def abi_structs_go : List (String × Property) → List String → List Property
  | [], _ => []
  | (_, p) :: rest, seen =>
    if is_sway_native p then
      abi_structs_go rest seen
    else if p.type_field ∈ seen then
      abi_structs_go rest seen
    else
      expand_custom_struct p :: abi_structs_go rest (p.type_field :: seen)

/-- `Abigen::abi_structs` (abigen.rs 184–205): the emitted struct
declarations, in registry order. -/
def abi_structs (custom_structs : List (String × Property)) : List Property :=
  abi_structs_go custom_structs []

/-! ## Output normalization (`Abigen::new`, abigen.rs 45–61) -/

/-- The closure of `Abigen::new` (abigen.rs 55): an output generated by forc
for a function with no return value (`"name": ""` and `"type": "()"`). -/
def is_unit_artifact (p : Property) : Bool :=
  p.name = "" && p.type_field = "()"

/-- Rust `Iterator::position`: index of the first element satisfying `pred`. -/
def position (pred : Property → Bool) : List Property → Option Nat
  | [] => none
  | x :: xs => if pred x then some 0 else (position pred xs).map (· + 1)

/-- Rust `Vec::remove(i)` restricted to in-bounds indices (out of bounds it
leaves the list unchanged; `Abigen::new` only calls it with an index found by
`position`). -/
def removeAt : List Property → Nat → List Property
  | [], _ => []
  | _ :: xs, 0 => xs
  | x :: xs, n + 1 => x :: removeAt xs n

/-- The output-filtering step of `Abigen::new` (abigen.rs 51–61) for one
function: remove the first output with empty name and unit type, if any. -/
def filter_empty_returns (f : AbiFunction) : AbiFunction :=
  match position is_unit_artifact f.outputs with
  | some i => { f with outputs := removeAt f.outputs i }
  | none => f

/-! ## Resolved types and type expansion (`types.rs`)

`ParamType` and `Token` are declared in `fuels-core/src/lib.rs`, which is not
part of the corpus; their constructors are modelled from the exhaustive
matches of `types.rs` and the spec's data model (§3). -/

/-- Modelled from the spec: `ParamType` (spec §3), the canonical resolved
type tree; constructor set taken from the exhaustive match of `expand_type`
(types.rs 11–55). -/
inductive ParamType : Type where
  | U8 | U16 | U32 | U64 | Bool | Byte | B256
  | String (len : Nat)
  | Array (elem : ParamType) (len : Nat)
  | Struct (members : List ParamType)
  | Enum (variants : List ParamType)
  | Tuple (members : List ParamType)

/-- Modelled from the spec: the `fuels-core` error enum (errors.rs is not part
of the corpus); only the variant used by `expand_type` (types.rs 26) is
modelled. -/
inductive Error : Type where
  | InvalidData

/-- The host-language (Rust) types produced by `expand_type`, one constructor
per `quote!` template of types.rs 11–55. -/
inductive RustType : Type where
  | u8 | u16 | u32 | u64 | bool | byteArray32 | string
  | vec (inner : RustType)
  | unnamedTuple (members : List RustType)

mutual

/-- `expand_type` (types.rs 11–55): expand a `ParamType` into the Rust type
used in the generated bindings. -/
def expand_type : ParamType → Except Error RustType
  | .U8 => .ok .u8
  | .Byte => .ok .u8
  | .U16 => .ok .u16
  | .U32 => .ok .u32
  | .U64 => .ok .u64
  | .Bool => .ok .bool
  | .B256 => .ok .byteArray32
  | .String _ => .ok .string
  | .Array t _size => (expand_type t).map .vec
  | .Struct members =>
    if members.isEmpty then .error .InvalidData
    else (expandTypeList members).map .unnamedTuple
  | .Enum members =>
    if members.isEmpty then .error .InvalidData
    else (expandTypeList members).map .unnamedTuple
  | .Tuple members =>
    if members.isEmpty then .error .InvalidData
    else (expandTypeList members).map .unnamedTuple

/-- The `members.iter().map(expand_type).collect::<Result<Vec<_>, _>>()` step
of `expand_type`: expand every member in order, short-circuiting on the first
error. -/
def expandTypeList : List ParamType → Except Error (List RustType)
  | [] => .ok []
  | t :: ts =>
    match expand_type t, expandTypeList ts with
    | .ok a, .ok b => .ok (a :: b)
    | .error e, _ => .error e
    | _, .error e => .error e

end

/-- Modelled from the spec: `Token` (spec §3), the value-level mirror of
`ParamType`, one constructor per `ParamType` variant; scalar payloads are
modelled as `Nat`/`Bool`, the enum payload as a discriminant plus a value
(the enum token does not retain its variant-type list, §4.4/§9).  The
constructor set is taken from the match of `impl From<Token> for ParamType`
(types.rs 57–87). -/
inductive Token : Type where
  | U8 (v : Nat) | U16 (v : Nat) | U32 (v : Nat) | U64 (v : Nat)
  | Bool (b : Bool) | Byte (v : Nat) | B256 (bytes : List Nat)
  | Array (members : List Token)
  | String (content : String)
  | Struct (members : List Token)
  | Enum (discriminant : Nat) (value : Token)
  | Tuple (members : List Token)

mutual

/-- `impl From<Token> for ParamType` (types.rs 57–87).  The out-of-bounds
panic of `members[0]` on an empty array token is modelled as `none`; the
catch-all arm maps the enum token to `ParamType::Enum(vec![])`. -/
def tokenToParamType : Token → Option ParamType
  | .U8 _ => some .U8
  | .U16 _ => some .U16
  | .U32 _ => some .U32
  | .U64 _ => some .U64
  | .Bool _ => some .Bool
  | .Byte _ => some .U8
  | .B256 _ => some .B256
  | .Array [] => none
  | .Array (m0 :: rest) =>
    (tokenToParamType m0).map fun pt => ParamType.Array pt (rest.length + 1)
  | .String content => some (.String content.utf8ByteSize)
  | .Struct members => (tokenListToParamTypes members).map ParamType.Struct
  | .Tuple members => (tokenListToParamTypes members).map ParamType.Tuple
  | .Enum _ _ => some (.Enum [])

/-- Member-wise `ParamType::from` over a token list (the `members.iter()
.map(…).collect()` steps of types.rs 71–82). -/
def tokenListToParamTypes : List Token → Option (List ParamType)
  | [] => some []
  | t :: ts =>
    match tokenToParamType t, tokenListToParamTypes ts with
    | some a, some b => some (a :: b)
    | _, _ => none

end

/-! ## Concrete schemas (used by the counterexamples and witnesses) -/

/-- The `struct Waiter` input component of the `struct_inside_enum` test
schema (abigen.rs 604–647). -/
def waiterProp : Property :=
  .mk "waiter" "struct Waiter" (some [.mk "name" "u8" none, .mk "male" "bool" none])

/-- The `enum Bar` input of the `struct_inside_enum` test schema. -/
def barProp : Property :=
  .mk "b" "enum Bar" (some [waiterProp, .mk "table" "u32" none])

/-- The `struct_inside_enum` test schema: a struct nested inside an enum. -/
def structInEnumAbi : JsonABI :=
  [{ type_field := "function", name := "struct_inside_enum",
     inputs := [barProp], outputs := [] }]

/-- The registry `get_custom_types` builds for `structInEnumAbi`. -/
def structInEnumRegistry : List (String × Property) :=
  [("Bar", barProp), ("Waiter", waiterProp)]

/-- A schema whose only input is tuple-tagged (its tag contains neither
keyword) with a struct-tagged component: the nested struct is visible to a
full recursive traversal but not to `get_custom_types`. -/
def tupleHiddenAbi : JsonABI :=
  [{ type_field := "function", name := "takes_pair",
     inputs := [.mk "arg" "(u64, u64)"
       (some [.mk "a" "u64" none,
              .mk "b" "struct Foo" (some [.mk "x" "bool" none])])],
     outputs := [] }]

/-- First definition of `struct Dup` (one `u8` member). -/
def dupProp1 : Property := .mk "d1" "struct Dup" (some [.mk "a" "u8" none])

/-- Second, differently-shaped definition of `struct Dup` (two members). -/
def dupProp2 : Property :=
  .mk "d2" "struct Dup" (some [.mk "b" "u64" none, .mk "c" "bool" none])

/-- A schema in which two functions define `struct Dup` with different
shapes. -/
def dupAbi : JsonABI :=
  [{ type_field := "function", name := "f1", inputs := [dupProp1], outputs := [] },
   { type_field := "function", name := "f2", inputs := [dupProp2], outputs := [] }]

/-- The insertion sequence of `dupAbi`: both `Dup` definitions, in traversal
order. -/
def dupRaw : List (String × Property) := [("Dup", dupProp1), ("Dup", dupProp2)]

/-- An enum-tagged property with an absent component list. -/
def brokenProp : Property := .mk "x" "enum Broken" none

/-- A schema whose only input is a custom type with no component list. -/
def brokenAbi : JsonABI :=
  [{ type_field := "function", name := "f", inputs := [brokenProp], outputs := [] }]

mutual

/-- Follows the words of claim C1 and spec §8 (not the source): the
struct/enum type names discoverable by unrestricted recursive traversal of a
property tree at any nesting depth. -/
def specNamesOfProp : Property → List String
  | .mk n t none =>
    if is_custom_type (.mk n t none) then
      (extract_custom_type_name_from_abi_property (.mk n t none)).toList
    else []
  | .mk n t (some cs) =>
    (if is_custom_type (.mk n t (some cs)) then
      (extract_custom_type_name_from_abi_property (.mk n t (some cs))).toList
    else []) ++ specNamesOfList cs

/-- `specNamesOfProp` concatenated over a property list. -/
def specNamesOfList : List Property → List String
  | [] => []
  | p :: ps => specNamesOfProp p ++ specNamesOfList ps

end

/-- Follows the words of claim C1 (not the source): the struct/enum type
names discoverable by recursive traversal of every function's inputs and
outputs at any nesting depth. -/
def specDiscoverableNames (abi : JsonABI) : List String :=
  specNamesOfList (get_all_properties abi)

/-- The `struct MyStruct` input of the emission witness schema. -/
def wMyStruct : Property := .mk "value" "struct MyStruct" (some [.mk "foo" "u8" none])

/-- A registry struct whose tag contains the Sway-native name `ContractId`. -/
def wNativeStruct : Property :=
  .mk "cid" "struct ContractId" (some [.mk "value" "b256" none])

/-- A schema with one ordinary custom struct and one Sway-native struct. -/
def abiStructsWitnessAbi : JsonABI :=
  [{ type_field := "function", name := "g",
     inputs := [wMyStruct, wNativeStruct], outputs := [] }]

/-- The registry `get_custom_types` builds for `abiStructsWitnessAbi`. -/
def abiStructsWitnessRegistry : List (String × Property) :=
  [("MyStruct", wMyStruct), ("ContractId", wNativeStruct)]

/-- A function whose outputs are an unnamed `bool` (kept) and a forc unit
artifact (dropped), after the test schemas of abigen.rs. -/
def wFn : AbiFunction :=
  { type_field := "contract", name := "takes_u32_returns_bool",
    inputs := [.mk "arg" "u32" none],
    outputs := [.mk "" "bool" none, .mk "" "()" none] }

theorem charsContain_iff (pat : List Char) :
    ∀ s : List Char, charsContain pat s = true ↔ pat <:+: s := by
  intro s
  induction s with
  | nil =>
    simp only [charsContain, List.isEmpty_iff, List.infix_nil]
  | cons c t ih =>
    simp only [charsContain, Bool.or_eq_true, List.isPrefixOf_iff_prefix, ih,
      List.infix_cons_iff]

theorem strContains_iff (haystack needle : String) :
    strContains haystack needle = true ↔ needle.data <:+: haystack.data :=
  charsContain_iff _ _

theorem strContains_of_startsWith {p s : String}
    (h : strStartsWith p s = true) {q : String} (hq : q.data <+: p.data) :
    strContains s q = true := by
  rw [strContains_iff]
  rw [strStartsWith, List.isPrefixOf_iff_prefix] at h
  exact (hq.trans h).isInfix

theorem extract_none_of_not_custom {p : Property}
    (h : is_custom_type p = false) :
    extract_custom_type_name_from_abi_property p = none := by
  rw [is_custom_type, Bool.or_eq_false_iff] at h
  rw [extract_custom_type_name_from_abi_property]
  by_cases hs : strStartsWith "struct " p.type_field = true
  · exact absurd (strContains_of_startsWith hs (q := STRUCT_KEYWORD) (by decide))
      (by simp [h.2])
  · by_cases he : strStartsWith "enum " p.type_field = true
    · exact absurd (strContains_of_startsWith he (q := ENUM_KEYWORD) (by decide))
        (by simp [h.1])
    · simp [hs, he]

theorem optOr_none_right {α : Type} (a : Option α) : optOr a none = a := by
  cases a <;> rfl

theorem hasName_iff_mem (m : List (String × Property)) (k : String) :
    hasName m k = true ↔ k ∈ m.map Prod.fst := by
  induction m with
  | nil => simp [hasName]
  | cons kv rest ih =>
    obtain ⟨k', v⟩ := kv
    simp only [hasName, List.map_cons, List.mem_cons]
    by_cases h : k' = k
    · simp [h]
    · rw [if_neg h, ih]
      exact (or_iff_right fun hh : k = k' => h hh.symm).symm

theorem lookupName_isSome_of_hasName {m : List (String × Property)} {k : String}
    (h : hasName m k = true) : ∃ v, lookupName m k = some v := by
  induction m with
  | nil => simp [hasName] at h
  | cons kv rest ih =>
    obtain ⟨k', v⟩ := kv
    by_cases hk : k' = k
    · exact ⟨v, by simp [lookupName, hk]⟩
    · rw [hasName, if_neg hk] at h
      obtain ⟨w, hw⟩ := ih h
      exact ⟨w, by simp [lookupName, hk, hw]⟩

theorem lookupName_append (m₁ m₂ : List (String × Property)) (k : String) :
    lookupName (m₁ ++ m₂) k = optOr (lookupName m₁ k) (lookupName m₂ k) := by
  induction m₁ with
  | nil => simp [lookupName, optOr]
  | cons kv rest ih =>
    obtain ⟨k', v⟩ := kv
    by_cases hk : k' = k <;> simp [lookupName, hk, ih, optOr]

theorem lookupName_foldl (l : List (String × Property)) :
    ∀ (m : List (String × Property)) (nm : String),
      lookupName (List.foldl insFold m l) nm =
        optOr (lookupName m nm) (lookupName l nm) := by
  induction l with
  | nil =>
    intro m nm
    rw [List.foldl_nil, lookupName, optOr_none_right]
  | cons kv t ih =>
    intro m nm
    obtain ⟨k, v⟩ := kv
    rw [List.foldl_cons]
    rw [ih (insFold m (k, v)) nm]
    show optOr (lookupName (insertIfAbsent m k v) nm) (lookupName t nm) = _
    rw [insertIfAbsent]
    by_cases hk : hasName m k = true
    · rw [if_pos hk]
      by_cases he : k = nm
      · subst he
        obtain ⟨w, hw⟩ := lookupName_isSome_of_hasName hk
        simp [lookupName, hw, optOr]
      · simp [lookupName, he]
    · rw [if_neg hk, lookupName_append]
      by_cases he : k = nm
      · subst he
        cases hlm : lookupName m k <;> simp [lookupName, optOr, hlm]
      · cases hlm : lookupName m nm <;> simp [lookupName, he, optOr, hlm]

theorem mem_keys_foldl (l : List (String × Property)) :
    ∀ (m : List (String × Property)) (nm : String),
      nm ∈ (List.foldl insFold m l).map Prod.fst ↔
        nm ∈ m.map Prod.fst ∨ nm ∈ l.map Prod.fst := by
  induction l with
  | nil => simp
  | cons kv t ih =>
    intro m nm
    obtain ⟨k, v⟩ := kv
    rw [List.foldl_cons, ih]
    show nm ∈ (insertIfAbsent m k v).map Prod.fst ∨ _ ↔ _
    rw [insertIfAbsent]
    by_cases hk : hasName m k = true
    · rw [if_pos hk]
      by_cases he : k = nm
      · subst he
        simp [(hasName_iff_mem m k).mp hk]
      · simp only [List.map_cons, List.mem_cons]
        constructor
        · rintro (h | h)
          · exact Or.inl h
          · exact Or.inr (Or.inr h)
        · rintro (h | h | h)
          · exact Or.inl h
          · exact absurd h.symm he
          · exact Or.inr h
    · rw [if_neg hk, List.map_append, List.mem_append]
      simp only [List.map_cons, List.map_nil, List.mem_cons, List.not_mem_nil,
        or_false]
      tauto

theorem keys_nodup_foldl (l : List (String × Property)) :
    ∀ m : List (String × Property), (m.map Prod.fst).Nodup →
      ((List.foldl insFold m l).map Prod.fst).Nodup := by
  induction l with
  | nil => intro m h; simpa using h
  | cons kv t ih =>
    intro m h
    obtain ⟨k, v⟩ := kv
    rw [List.foldl_cons]
    apply ih
    show ((insertIfAbsent m k v).map Prod.fst).Nodup
    rw [insertIfAbsent]
    by_cases hk : hasName m k = true
    · rw [if_pos hk]; exact h
    · rw [if_neg hk, List.map_append]
      refine List.Nodup.append h (by simp) ?_
      intro a ha hb
      simp only [List.map_cons, List.map_nil, List.mem_singleton] at hb
      subst hb
      exact hk ((hasName_iff_mem m a).mpr ha)

theorem entries_foldl_sub (l : List (String × Property)) :
    ∀ (m : List (String × Property)) (e : String × Property),
      e ∈ List.foldl insFold m l → e ∈ m ∨ e ∈ l := by
  induction l with
  | nil => intro m e h; exact Or.inl (by simpa using h)
  | cons kv t ih =>
    intro m e h
    rw [List.foldl_cons] at h
    rcases ih _ e h with h' | h'
    · rw [insFold, insertIfAbsent] at h'
      by_cases hk : hasName m kv.1 = true
      · rw [if_pos hk] at h'
        exact Or.inl h'
      · rw [if_neg hk, List.mem_append] at h'
        rcases h' with h' | h'
        · exact Or.inl h'
        · simp only [List.mem_singleton] at h'
          exact Or.inr (by simp [h'])
    · exact Or.inr (List.mem_cons_of_mem _ h')

/-! ## The passes compute a fold of the insertion sequence -/

theorem outerPass_eq_rawOuter (ps : List Property) :
    ∀ (m : List (String × Property)) (inners : List Property),
      outerPass ps m inners =
        (rawOuter ps).map fun pr => (List.foldl insFold m pr.1, inners ++ pr.2) := by
  induction ps with
  | nil => intro m inners; simp [outerPass, rawOuter]
  | cons p ps ih =>
    intro m inners
    rw [outerPass, rawOuter]
    by_cases hc : is_custom_type p = true
    · rw [if_pos hc, if_pos hc]
      cases hx : extract_custom_type_name_from_abi_property p with
      | none => rfl
      | some nm =>
        cases hcs : p.components with
        | none => rfl
        | some cs =>
          cases hio : innerOfList cs with
          | none => simp [hio]
          | some newInners =>
            simp only [hio]
            rw [ih]
            cases hro : rawOuter ps with
            | none => simp [hro]
            | some pr =>
              obtain ⟨prs, inns⟩ := pr
              simp [hro, List.foldl_cons, insFold, List.append_assoc]
    · rw [if_neg hc, if_neg hc]
      exact ih m inners

theorem innerPass_eq_rawInner (ps : List Property) :
    ∀ m : List (String × Property),
      innerPass ps m = (rawInner ps).map (List.foldl insFold m) := by
  induction ps with
  | nil => intro m; simp [innerPass, rawInner]
  | cons p ps ih =>
    intro m
    rw [innerPass, rawInner]
    by_cases hc : is_custom_type p = true
    · rw [if_pos hc, if_pos hc]
      cases hx : extract_custom_type_name_from_abi_property p with
      | none => rfl
      | some nm =>
        simp only
        rw [ih]
        cases hri : rawInner ps with
        | none => simp [hri]
        | some prs => simp [hri, List.foldl_cons, insFold]
    · rw [if_neg hc, if_neg hc]
      exact ih m

/-- `get_custom_types` is the first-seen-wins fold of its insertion sequence. -/
theorem get_custom_types_eq_fold_rawPairs (abi : JsonABI) :
    get_custom_types abi = (rawPairs abi).map (List.foldl insFold []) := by
  rw [get_custom_types, rawPairs, outerPass_eq_rawOuter]
  cases hro : rawOuter (get_all_properties abi) with
  | none => rfl
  | some pr =>
    obtain ⟨prs, inns⟩ := pr
    simp only [Option.map_some', List.nil_append]
    rw [innerPass_eq_rawInner]
    cases hri : rawInner inns with
    | none => rfl
    | some iprs => simp [List.foldl_append]

/-! ## Successful inner discovery computes the custom-chain closure -/

mutual

theorem inner_eq_discoverCustom :
    ∀ (p : Property) (l : List Property),
      get_inner_custom_properties p = some l → l = discoverCustom p
  | .mk n t none, l => by
    intro h
    rw [get_inner_custom_properties] at h
    rw [discoverCustom]
    by_cases hc : is_custom_type (.mk n t none) = true
    · rw [if_pos hc] at h; exact absurd h (by simp)
    · rw [if_neg hc] at h
      rw [if_neg hc]
      exact (Option.some_inj.mp h).symm
  | .mk n t (some cs), l => by
    intro h
    rw [get_inner_custom_properties] at h
    rw [discoverCustom]
    by_cases hc : is_custom_type (.mk n t (some cs)) = true
    · rw [if_pos hc] at h
      rw [if_pos hc]
      cases hio : innerOfList cs with
      | none => rw [hio] at h; exact absurd h (by simp)
      | some l' =>
        rw [hio] at h
        simp only [Option.map_some'] at h
        rw [← Option.some_inj.mp h, innerList_eq_discoverList cs l' hio]
    · rw [if_neg hc] at h
      rw [if_neg hc]
      exact (Option.some_inj.mp h).symm

theorem innerList_eq_discoverList :
    ∀ (cs : List Property) (l : List Property),
      innerOfList cs = some l → l = discoverList cs
  | [], l => by
    intro h
    rw [innerOfList] at h
    rw [discoverList]
    exact (Option.some_inj.mp h).symm
  | c :: cs, l => by
    intro h
    rw [innerOfList] at h
    rw [discoverList]
    cases hc : get_inner_custom_properties c with
    | none => rw [hc] at h; exact absurd h (by simp)
    | some a =>
      cases hcs : innerOfList cs with
      | none => rw [hc, hcs] at h; exact absurd h (by simp)
      | some b =>
        rw [hc, hcs] at h
        simp only at h
        rw [← Option.some_inj.mp h,
          inner_eq_discoverCustom c a hc, innerList_eq_discoverList cs b hcs]

end

/-! ## A missing component list on an encountered custom type fails discovery -/

theorem discoverCustom_custom {p q : Property}
    (h : p ∈ discoverCustom q) : is_custom_type q = true := by
  obtain ⟨n, t, comps⟩ := q
  by_cases hc : is_custom_type (.mk n t comps) = true
  · exact hc
  · exfalso
    cases comps with
    | none => rw [discoverCustom, if_neg hc] at h; exact absurd h (by simp)
    | some cs => rw [discoverCustom, if_neg hc] at h; exact absurd h (by simp)

mutual

theorem inner_none_of_discover_bad :
    ∀ (q p : Property), p ∈ discoverCustom q → p.components = none →
      get_inner_custom_properties q = none
  | .mk n t none, p => by
    intro hp _hbad
    have hc := discoverCustom_custom hp
    rw [get_inner_custom_properties, if_pos hc]
  | .mk n t (some cs), p => by
    intro hp hbad
    have hc := discoverCustom_custom hp
    rw [discoverCustom, if_pos hc] at hp
    rw [get_inner_custom_properties, if_pos hc]
    rcases List.mem_cons.mp hp with heq | hmem
    · subst heq
      simp [Property.components] at hbad
    · rw [innerList_none_of_discover_bad cs p hmem hbad]
      rfl

theorem innerList_none_of_discover_bad :
    ∀ (cs : List Property) (p : Property), p ∈ discoverList cs →
      p.components = none → innerOfList cs = none
  | [], p => by
    intro hp _hbad
    rw [discoverList] at hp
    exact absurd hp (by simp)
  | c :: cs, p => by
    intro hp hbad
    rw [discoverList] at hp
    rw [innerOfList]
    rcases List.mem_append.mp hp with hmem | hmem
    · rw [inner_none_of_discover_bad c p hmem hbad]
    · rw [innerList_none_of_discover_bad cs p hmem hbad]
      cases get_inner_custom_properties c <;> rfl

end

theorem outerPass_none_of_bad_head {q : Property} :
    ∀ ps : List Property, q ∈ ps → is_custom_type q = true →
      (q.components = none ∨
        ∃ cs, q.components = some cs ∧ innerOfList cs = none) →
      ∀ (m : List (String × Property)) (inners : List Property),
        outerPass ps m inners = none := by
  intro ps
  induction ps with
  | nil => intro h; exact absurd h (by simp)
  | cons p ps ih =>
    intro hq hcustom hbad m inners
    rw [outerPass]
    rcases List.mem_cons.mp hq with heq | hmem
    · subst heq
      rw [if_pos hcustom]
      cases hx : extract_custom_type_name_from_abi_property q with
      | none => rfl
      | some nm =>
        rcases hbad with hnone | ⟨cs, hcs, hio⟩
        · simp [hnone]
        · simp [hcs, hio]
    · by_cases hc : is_custom_type p = true
      · rw [if_pos hc]
        cases hx : extract_custom_type_name_from_abi_property p with
        | none => rfl
        | some nm =>
          simp only
          cases hcs : p.components with
          | none => simp [hcs]
          | some cs =>
            simp only [hcs]
            cases hio : innerOfList cs with
            | none => simp [hio]
            | some newInners =>
              simp only [hio]
              exact ih hmem hcustom hbad _ _
      · rw [if_neg hc]
        exact ih hmem hcustom hbad m inners

/-! ## Names of the insertion sequence -/

theorem discoverCustom_eq_nil {p : Property} (h : is_custom_type p = false) :
    discoverCustom p = [] := by
  obtain ⟨n, t, comps⟩ := p
  cases comps with
  | none => rw [discoverCustom, if_neg (by simp [h])]
  | some cs => rw [discoverCustom, if_neg (by simp [h])]

theorem rawInner_append (a : List Property) :
    ∀ b : List Property,
      rawInner (a ++ b) =
        match rawInner a, rawInner b with
        | some x, some y => some (x ++ y)
        | _, _ => none := by
  induction a with
  | nil =>
    intro b
    rw [List.nil_append]
    show rawInner b = _
    rw [rawInner]
    cases rawInner b <;> simp
  | cons p a ih =>
    intro b
    rw [List.cons_append, rawInner, rawInner]
    by_cases hc : is_custom_type p = true
    · rw [if_pos hc, if_pos hc]
      cases hx : extract_custom_type_name_from_abi_property p with
      | none => simp
      | some nm =>
        simp only
        rw [ih b]
        cases ha : rawInner a with
        | none => simp
        | some x =>
          cases hb : rawInner b with
          | none => simp
          | some y => simp
    · rw [if_neg hc, if_neg hc]
      exact ih b

theorem rawInner_names (l : List Property) :
    ∀ iprs : List (String × Property), rawInner l = some iprs →
      iprs.map Prod.fst =
        l.filterMap extract_custom_type_name_from_abi_property := by
  induction l with
  | nil =>
    intro iprs h
    rw [rawInner] at h
    rw [← Option.some_inj.mp h]
    simp
  | cons p l ih =>
    intro iprs h
    rw [rawInner] at h
    rw [List.filterMap_cons]
    by_cases hc : is_custom_type p = true
    · rw [if_pos hc] at h
      cases hx : extract_custom_type_name_from_abi_property p with
      | none => rw [hx] at h; exact absurd h (by simp)
      | some nm =>
        rw [hx] at h
        simp only at h
        cases hri : rawInner l with
        | none => rw [hri] at h; exact absurd h (by simp)
        | some prs =>
          rw [hri] at h
          simp only at h
          rw [← Option.some_inj.mp h]
          simp [ih prs hri]
    · rw [if_neg hc] at h
      rw [extract_none_of_not_custom (by simpa using hc)]
      exact ih iprs h

theorem rawPairs_names_iff :
    ∀ (ps : List Property) (prs : List (String × Property)) (inns : List Property)
      (iprs : List (String × Property)),
      rawOuter ps = some (prs, inns) → rawInner inns = some iprs →
      ∀ nm : String,
        (nm ∈ prs.map Prod.fst ∨ nm ∈ iprs.map Prod.fst) ↔
          nm ∈ (discoverAll ps).filterMap extract_custom_type_name_from_abi_property := by
  intro ps
  induction ps with
  | nil =>
    intro prs inns iprs hro hri nm
    rw [rawOuter] at hro
    obtain ⟨h1, h2⟩ := Prod.mk.injEq .. ▸ Option.some_inj.mp hro
    subst h1; subst h2
    rw [rawInner] at hri
    rw [← Option.some_inj.mp hri]
    simp [discoverAll]
  | cons p ps ih =>
    intro prs inns iprs hro hri nm
    rw [rawOuter] at hro
    by_cases hc : is_custom_type p = true
    · rw [if_pos hc] at hro
      obtain ⟨n, t, comps⟩ := p
      cases hx : extract_custom_type_name_from_abi_property (.mk n t comps) with
      | none => rw [hx] at hro; exact absurd hro (by simp)
      | some pnm =>
        rw [hx] at hro
        simp only at hro
        cases comps with
        | none => exact absurd hro (by simp [Property.components])
        | some cs =>
          simp only [Property.components] at hro
          cases hio : innerOfList cs with
          | none => rw [hio] at hro; exact absurd hro (by simp)
          | some newInners =>
            rw [hio] at hro
            simp only at hro
            cases hro' : rawOuter ps with
            | none => rw [hro'] at hro; exact absurd hro (by simp)
            | some pr =>
              obtain ⟨prs', inns'⟩ := pr
              rw [hro'] at hro
              simp only at hro
              obtain ⟨h1, h2⟩ := Prod.mk.injEq .. ▸ Option.some_inj.mp hro
              subst h1; subst h2
              rw [rawInner_append] at hri
              cases hriA : rawInner newInners with
              | none => rw [hriA] at hri; exact absurd hri (by simp)
              | some iA =>
                cases hriB : rawInner inns' with
                | none => rw [hriA, hriB] at hri; exact absurd hri (by simp)
                | some iB =>
                  rw [hriA, hriB] at hri
                  simp only at hri
                  rw [← Option.some_inj.mp hri]
                  have hnames := rawInner_names newInners iA hriA
                  have hdisc := innerList_eq_discoverList cs newInners hio
                  subst hdisc
                  rw [discoverAll, discoverCustom, if_pos hc]
                  rw [List.filterMap_append, List.filterMap_cons, hx]
                  have hih := ih prs' inns' iB hro' hriB nm
                  simp only [List.map_cons, List.map_append, List.mem_cons,
                    List.mem_append, List.filterMap_append] at hih ⊢
                  rw [hnames] at *
                  tauto
    · rw [if_neg hc] at hro
      rw [discoverAll, discoverCustom_eq_nil (by simpa using hc), List.nil_append]
      exact ih prs inns iprs hro hri nm

/-! ## Claims C1, C2 and C5 -/

theorem mem_discoverAll {p : Property} :
    ∀ ps : List Property, p ∈ discoverAll ps → ∃ q ∈ ps, p ∈ discoverCustom q := by
  intro ps
  induction ps with
  | nil => intro h; exact absurd h (by simp [discoverAll])
  | cons q ps ih =>
    intro h
    rw [discoverAll] at h
    rcases List.mem_append.mp h with h | h
    · exact ⟨q, List.mem_cons_self q ps, h⟩
    · obtain ⟨r, hr, hpr⟩ := ih h
      exact ⟨r, List.mem_cons_of_mem _ hr, hpr⟩

/-- C1 (as stated, refuted): on `tupleHiddenAbi` the registry is empty while
a full recursive traversal of every function's inputs and outputs discovers
the struct name `Foo`; the registry names do not equal the names discoverable
at any nesting depth, because discovery never descends into components of a
property whose own tag has no struct/enum keyword. -/
theorem get_custom_types_misses_nested_under_non_custom :
    get_custom_types tupleHiddenAbi = some [] ∧
      specDiscoverableNames tupleHiddenAbi = ["Foo"] :=
  ⟨rfl, rfl⟩

/-- C1 (amended): for every schema on which `get_custom_types` succeeds, the
set of type names in the registry (which has no duplicate names) equals the
set of names of the struct/enum-tagged properties discoverable by the
traversal that descends only into components of struct/enum-tagged
properties; in particular a struct nested in an enum and an enum nested in a
struct are both discovered, each as one registry entry. -/
theorem registry_names_eq_chain_discoverable_names (abi : JsonABI)
    (m : List (String × Property)) (h : get_custom_types abi = some m) :
    (m.map Prod.fst).Nodup ∧
    ∀ nm : String,
      nm ∈ m.map Prod.fst ↔
        nm ∈ (chainDiscoverable abi).filterMap
              extract_custom_type_name_from_abi_property := by
  rw [get_custom_types_eq_fold_rawPairs] at h
  obtain ⟨raw, hraw, hm⟩ := Option.map_eq_some'.mp h
  subst hm
  constructor
  · exact keys_nodup_foldl raw [] (by simp)
  · intro nm
    rw [mem_keys_foldl raw [] nm]
    rw [rawPairs] at hraw
    cases hro : rawOuter (get_all_properties abi) with
    | none => rw [hro] at hraw; exact absurd hraw (by simp)
    | some pr =>
      obtain ⟨prs, inns⟩ := pr
      rw [hro] at hraw
      simp only at hraw
      cases hri : rawInner inns with
      | none => rw [hri] at hraw; exact absurd hraw (by simp)
      | some iprs =>
        rw [hri] at hraw
        simp only at hraw
        rw [← Option.some_inj.mp hraw]
        have hiff := rawPairs_names_iff (get_all_properties abi) prs inns iprs hro hri nm
        rw [chainDiscoverable] at *
        simp only [List.map_nil, List.not_mem_nil, false_or, List.map_append,
          List.mem_append]
        rw [← hiff]

/-- Witness for the amended C1: the struct-inside-enum schema, where both
`Bar` and `Waiter` are discovered and each is exactly one registry entry. -/
theorem registry_names_witness :
    (structInEnumRegistry.map Prod.fst).Nodup ∧
    ∀ nm : String,
      nm ∈ structInEnumRegistry.map Prod.fst ↔
        nm ∈ (chainDiscoverable structInEnumAbi).filterMap
              extract_custom_type_name_from_abi_property :=
  registry_names_eq_chain_discoverable_names structInEnumAbi structInEnumRegistry rfl

/-- C2: whenever the insertion sequence of a schema is defined — in
particular when two or more struct/enum-tagged properties share one extracted
name — `get_custom_types` succeeds (no error is reported for the collision),
the registry has exactly one entry per name, and the entry for each name is
the defining property inserted first in traversal order. -/
theorem registry_first_seen_wins (abi : JsonABI) (raw : List (String × Property))
    (h : rawPairs abi = some raw) :
    ∃ m, get_custom_types abi = some m ∧ (m.map Prod.fst).Nodup ∧
      ∀ nm : String, lookupName m nm = lookupName raw nm := by
  refine ⟨List.foldl insFold [] raw, ?_, keys_nodup_foldl raw [] (by simp), ?_⟩
  · rw [get_custom_types_eq_fold_rawPairs, h]; rfl
  · intro nm
    rw [lookupName_foldl raw [] nm]
    rfl

/-- Witness for C2: two functions define differently-shaped `struct Dup`;
the registry keeps the first definition and reports no error. -/
theorem registry_first_seen_wins_witness :
    ∃ m, get_custom_types dupAbi = some m ∧ (m.map Prod.fst).Nodup ∧
      ∀ nm : String, lookupName m nm = lookupName dupRaw nm :=
  registry_first_seen_wins dupAbi dupRaw rfl

/-- C5: if the discovery traversal of `get_custom_types` encounters a
struct/enum-tagged property whose component list is absent, the whole
registry construction fails (the `unwrap` panics) instead of building a
registry from that property. -/
theorem missing_components_fails_discovery (abi : JsonABI) (p : Property)
    (hmem : p ∈ chainDiscoverable abi) (hbad : p.components = none) :
    get_custom_types abi = none := by
  rw [chainDiscoverable] at hmem
  obtain ⟨q, hq, hpq⟩ := mem_discoverAll _ hmem
  have hqc : is_custom_type q = true := discoverCustom_custom hpq
  have hbadq : q.components = none ∨
      ∃ cs, q.components = some cs ∧ innerOfList cs = none := by
    obtain ⟨n, t, comps⟩ := q
    cases comps with
    | none => exact Or.inl rfl
    | some cs =>
      right
      refine ⟨cs, rfl, ?_⟩
      rw [discoverCustom, if_pos hqc] at hpq
      rcases List.mem_cons.mp hpq with heq | hmem2
      · rw [heq] at hbad
        simp [Property.components] at hbad
      · exact innerList_none_of_discover_bad cs p hmem2 hbad
  have hout := outerPass_none_of_bad_head (get_all_properties abi) hq hqc hbadq [] []
  rw [get_custom_types, hout]

/-- Witness for C5: a schema whose single input is `enum Broken` with no
component list makes `get_custom_types` fail. -/
theorem missing_components_witness : get_custom_types brokenAbi = none :=
  missing_components_fails_discovery brokenAbi brokenProp
    (by show brokenProp ∈ [brokenProp]; exact List.mem_singleton.mpr rfl) rfl

/-! ## Claim C3: one declaration per non-native registry struct -/

theorem extract_congr_type_field {p q : Property}
    (h : p.type_field = q.type_field) :
    extract_custom_type_name_from_abi_property p =
      extract_custom_type_name_from_abi_property q := by
  rw [extract_custom_type_name_from_abi_property,
    extract_custom_type_name_from_abi_property, h]

theorem rawOuter_entry_extract :
    ∀ (ps : List Property) (prs : List (String × Property)) (inns : List Property),
      rawOuter ps = some (prs, inns) → ∀ kv ∈ prs,
        extract_custom_type_name_from_abi_property kv.2 = some kv.1 := by
  intro ps
  induction ps with
  | nil =>
    intro prs inns h kv hkv
    rw [rawOuter] at h
    obtain ⟨h1, _⟩ := Prod.mk.injEq .. ▸ Option.some_inj.mp h
    subst h1
    exact absurd hkv (by simp)
  | cons p ps ih =>
    intro prs inns h kv hkv
    rw [rawOuter] at h
    by_cases hc : is_custom_type p = true
    · rw [if_pos hc] at h
      cases hx : extract_custom_type_name_from_abi_property p with
      | none => rw [hx] at h; exact absurd h (by simp)
      | some nm =>
        rw [hx] at h
        simp only at h
        cases hcs : p.components with
        | none => rw [hcs] at h; exact absurd h (by simp)
        | some cs =>
          rw [hcs] at h
          simp only at h
          cases hio : innerOfList cs with
          | none => rw [hio] at h; exact absurd h (by simp)
          | some newInners =>
            rw [hio] at h
            simp only at h
            cases hro : rawOuter ps with
            | none => rw [hro] at h; exact absurd h (by simp)
            | some pr =>
              obtain ⟨prs', inns'⟩ := pr
              rw [hro] at h
              simp only at h
              obtain ⟨h1, _⟩ := Prod.mk.injEq .. ▸ Option.some_inj.mp h
              subst h1
              rcases List.mem_cons.mp hkv with heq | hmem
              · rw [heq]; exact hx
              · exact ih prs' inns' hro kv hmem
    · rw [if_neg hc] at h
      exact ih prs inns h kv hkv

theorem rawInner_entry_extract :
    ∀ (l : List Property) (iprs : List (String × Property)),
      rawInner l = some iprs → ∀ kv ∈ iprs,
        extract_custom_type_name_from_abi_property kv.2 = some kv.1 := by
  intro l
  induction l with
  | nil =>
    intro iprs h kv hkv
    rw [rawInner] at h
    rw [← Option.some_inj.mp h] at hkv
    exact absurd hkv (by simp)
  | cons p l ih =>
    intro iprs h kv hkv
    rw [rawInner] at h
    by_cases hc : is_custom_type p = true
    · rw [if_pos hc] at h
      cases hx : extract_custom_type_name_from_abi_property p with
      | none => rw [hx] at h; exact absurd h (by simp)
      | some nm =>
        rw [hx] at h
        simp only at h
        cases hri : rawInner l with
        | none => rw [hri] at h; exact absurd h (by simp)
        | some prs =>
          rw [hri] at h
          simp only at h
          rw [← Option.some_inj.mp h] at hkv
          rcases List.mem_cons.mp hkv with heq | hmem
          · rw [heq]; exact hx
          · exact ih prs hri kv hmem
    · rw [if_neg hc] at h
      exact ih iprs h kv hkv

theorem registry_entry_extract (abi : JsonABI) (m : List (String × Property))
    (h : get_custom_types abi = some m) :
    ∀ kv ∈ m, extract_custom_type_name_from_abi_property kv.2 = some kv.1 := by
  intro kv hkv
  rw [get_custom_types_eq_fold_rawPairs] at h
  obtain ⟨raw, hraw, hm⟩ := Option.map_eq_some'.mp h
  subst hm
  rcases entries_foldl_sub raw [] kv hkv with h' | h'
  · exact absurd h' (by simp)
  · rw [rawPairs] at hraw
    cases hro : rawOuter (get_all_properties abi) with
    | none => rw [hro] at hraw; exact absurd hraw (by simp)
    | some pr =>
      obtain ⟨prs, inns⟩ := pr
      rw [hro] at hraw
      simp only at hraw
      cases hri : rawInner inns with
      | none => rw [hri] at hraw; exact absurd hraw (by simp)
      | some iprs =>
        rw [hri] at hraw
        simp only at hraw
        rw [← Option.some_inj.mp hraw] at h'
        rcases List.mem_append.mp h' with hmem | hmem
        · exact rawOuter_entry_extract _ prs inns hro kv hmem
        · exact rawInner_entry_extract inns iprs hri kv hmem

theorem registry_tags_nodup (abi : JsonABI) (m : List (String × Property))
    (h : get_custom_types abi = some m) :
    (m.map fun kv => kv.2.type_field).Nodup := by
  have hkeys : (m.map Prod.fst).Nodup := by
    rw [get_custom_types_eq_fold_rawPairs] at h
    obtain ⟨raw, hraw, hm⟩ := Option.map_eq_some'.mp h
    subst hm
    exact keys_nodup_foldl raw [] (by simp)
  have hx := registry_entry_extract abi m h
  have hinj := List.inj_on_of_nodup_map hkeys
  have hm : m.Nodup := hkeys.of_map
  refine List.Nodup.map_on ?_ hm
  intro x hx1 y hy1 htag
  refine hinj hx1 hy1 ?_
  have hchain := ((hx x hx1).symm.trans
    ((extract_congr_type_field htag).trans (hx y hy1)))
  exact Option.some_inj.mp hchain

theorem abi_structs_go_eq :
    ∀ (l : List (String × Property)) (seen : List String),
      ((l.map fun kv => kv.2.type_field).Nodup) →
      (∀ kv ∈ l, kv.2.type_field ∉ seen) →
      abi_structs_go l seen = (l.map Prod.snd).filter fun p => !(is_sway_native p) := by
  intro l
  induction l with
  | nil => intro seen _ _; rfl
  | cons kv rest ih =>
    intro seen hnodup hseen
    obtain ⟨k, p⟩ := kv
    rw [List.map_cons] at hnodup
    obtain ⟨hhead, htail⟩ := List.nodup_cons.mp hnodup
    rw [abi_structs_go, List.map_cons, List.filter_cons]
    by_cases hn : is_sway_native p = true
    · rw [if_pos hn, hn]
      simp only [Bool.not_true, Bool.false_eq_true, if_false]
      exact ih seen htail fun kv hkv => hseen kv (List.mem_cons_of_mem _ hkv)
    · rw [Bool.not_eq_true] at hn
      rw [if_neg (by simp [hn]), hn]
      rw [if_neg (hseen (k, p) (List.mem_cons_self _ _))]
      simp only [Bool.not_false, if_true]
      rw [ih (p.type_field :: seen) htail ?_]
      · rfl
      · intro kv hkv
        rw [List.mem_cons]
        push_neg
        constructor
        · intro heq
          exact hhead (heq ▸ List.mem_map_of_mem (fun kv => kv.2.type_field) hkv)
        · exact hseen kv (List.mem_cons_of_mem _ hkv)

/-- C3: for every schema on which `get_custom_types` succeeds, `abi_structs`
emits exactly the non-Sway-native structs of the `custom_structs` registry —
one declaration per registry struct, none at all for a struct whose type tag
contains `ContractId` or `Address` — and no declaration is repeated. -/
theorem abi_structs_one_decl_per_non_native_struct (abi : JsonABI)
    (m : List (String × Property)) (h : get_custom_types abi = some m) :
    abi_structs (custom_structs_of m) =
      ((custom_structs_of m).map Prod.snd).filter (fun p => !(is_sway_native p)) ∧
    (abi_structs (custom_structs_of m)).Nodup := by
  have htags := registry_tags_nodup abi m h
  have htags2 : ((custom_structs_of m).map fun kv => kv.2.type_field).Nodup := by
    refine List.Nodup.sublist ?_ htags
    exact List.Sublist.map _ (List.filter_sublist m)
  have heq : abi_structs (custom_structs_of m) =
      ((custom_structs_of m).map Prod.snd).filter (fun p => !(is_sway_native p)) :=
    abi_structs_go_eq (custom_structs_of m) [] htags2 (by simp)
  refine ⟨heq, ?_⟩
  rw [heq]
  have hsub : List.Sublist
      ((((custom_structs_of m).map Prod.snd).filter
        (fun p => !(is_sway_native p))).map Property.type_field)
      (((custom_structs_of m).map Prod.snd).map Property.type_field) :=
    List.Sublist.map _ (List.filter_sublist _)
  have hnd : ((((custom_structs_of m).map Prod.snd).filter
      (fun p => !(is_sway_native p))).map Property.type_field).Nodup := by
    refine List.Nodup.sublist hsub ?_
    simpa [List.map_map, Function.comp] using htags2
  exact hnd.of_map

/-- Witness for C3: `MyStruct` is emitted exactly once; the Sway-native
`ContractId` struct is skipped. -/
theorem abi_structs_witness :
    abi_structs (custom_structs_of abiStructsWitnessRegistry) =
      ((custom_structs_of abiStructsWitnessRegistry).map Prod.snd).filter
        (fun p => !(is_sway_native p)) ∧
    (abi_structs (custom_structs_of abiStructsWitnessRegistry)).Nodup :=
  abi_structs_one_decl_per_non_native_struct abiStructsWitnessAbi
    abiStructsWitnessRegistry rfl

/-! ## Claim C4: the unit-output filter of `Abigen::new` -/

theorem position_none_iff (pred : Property → Bool) :
    ∀ l : List Property, position pred l = none ↔ ∀ p ∈ l, pred p = false := by
  intro l
  induction l with
  | nil => simp [position]
  | cons x xs ih =>
    rw [position]
    by_cases hx : pred x = true
    · simp [hx]
    · rw [Bool.not_eq_true] at hx
      rw [if_neg (by simp [hx])]
      rw [Option.map_eq_none', ih]
      constructor
      · intro hall p hpmem
        rcases List.mem_cons.mp hpmem with heq | hmem
        · rw [heq]; exact hx
        · exact hall p hmem
      · intro hall p hmem
        exact hall p (List.mem_cons_of_mem _ hmem)

theorem remove_first_artifact_spec :
    ∀ l : List Property,
      ((∀ p ∈ l, is_unit_artifact p = false) ∧
        (match position is_unit_artifact l with
          | some i => removeAt l i
          | none => l) = l) ∨
      (∃ l₁ a l₂, l = l₁ ++ a :: l₂ ∧ (∀ p ∈ l₁, is_unit_artifact p = false) ∧
        is_unit_artifact a = true ∧
        (match position is_unit_artifact l with
          | some i => removeAt l i
          | none => l) = l₁ ++ l₂) := by
  intro l
  induction l with
  | nil => exact Or.inl ⟨by simp, by simp [position]⟩
  | cons x xs ih =>
    by_cases hx : is_unit_artifact x = true
    · refine Or.inr ⟨[], x, xs, by simp, by simp, hx, ?_⟩
      rw [position, if_pos hx]
      simp [removeAt]
    · rw [Bool.not_eq_true] at hx
      cases hp : position is_unit_artifact xs with
      | none =>
        left
        have hall := (position_none_iff is_unit_artifact xs).mp hp
        constructor
        · intro p hpmem
          rcases List.mem_cons.mp hpmem with heq | hmem
          · rw [heq]; exact hx
          · exact hall p hmem
        · rw [position, if_neg (by simp [hx]), hp]
          simp
      | some i =>
        right
        rcases ih with ⟨hall, _⟩ | ⟨l₁, a, l₂, hsplit, hl₁, ha, hres⟩
        · exact absurd ((position_none_iff is_unit_artifact xs).mpr hall)
            (by simp [hp])
        · refine ⟨x :: l₁, a, l₂, by rw [hsplit, List.cons_append], ?_, ha, ?_⟩
          · intro p hpmem
            rcases List.mem_cons.mp hpmem with heq | hmem
            · rw [heq]; exact hx
            · exact hl₁ p hmem
          · rw [hp] at hres
            simp only at hres
            rw [position, if_neg (by simp [hx]), hp]
            simp only [Option.map_some']
            rw [removeAt]
            rw [hres, List.cons_append]

/-- C4: for every function, the normalization of `Abigen::new` removes at
most one output — the first output with empty name and unit type tag `()`,
when one exists — keeps every other output in its original order, and leaves
the function's name and inputs unchanged. -/
theorem filter_empty_returns_spec (f : AbiFunction) :
    (filter_empty_returns f).name = f.name ∧
    (filter_empty_returns f).inputs = f.inputs ∧
    (((∀ p ∈ f.outputs, is_unit_artifact p = false) ∧
        (filter_empty_returns f).outputs = f.outputs) ∨
      (∃ l₁ a l₂, f.outputs = l₁ ++ a :: l₂ ∧
        (∀ p ∈ l₁, is_unit_artifact p = false) ∧ is_unit_artifact a = true ∧
        (filter_empty_returns f).outputs = l₁ ++ l₂)) := by
  have houts :
      (filter_empty_returns f).outputs =
        match position is_unit_artifact f.outputs with
        | some i => removeAt f.outputs i
        | none => f.outputs := by
    rw [filter_empty_returns]
    cases position is_unit_artifact f.outputs <;> rfl
  have hname : (filter_empty_returns f).name = f.name := by
    rw [filter_empty_returns]
    cases position is_unit_artifact f.outputs <;> rfl
  have hins : (filter_empty_returns f).inputs = f.inputs := by
    rw [filter_empty_returns]
    cases position is_unit_artifact f.outputs <;> rfl
  refine ⟨hname, hins, ?_⟩
  rw [houts]
  exact remove_first_artifact_spec f.outputs

/-- Witness for C4: the normalization applied to `wFn`. -/
theorem filter_empty_returns_witness :
    (filter_empty_returns wFn).name = wFn.name ∧
    (filter_empty_returns wFn).inputs = wFn.inputs ∧
    (((∀ p ∈ wFn.outputs, is_unit_artifact p = false) ∧
        (filter_empty_returns wFn).outputs = wFn.outputs) ∨
      (∃ l₁ a l₂, wFn.outputs = l₁ ++ a :: l₂ ∧
        (∀ p ∈ l₁, is_unit_artifact p = false) ∧ is_unit_artifact a = true ∧
        (filter_empty_returns wFn).outputs = l₁ ++ l₂)) :=
  filter_empty_returns_spec wFn

/-! ## Claim C6: expansion of composite types -/

theorem expandTypeList_ok :
    ∀ (ms : List ParamType) (rs : List RustType), expandTypeList ms = .ok rs →
      rs.length = ms.length ∧
      ∀ (i : Nat) (hm : i < ms.length) (hr : i < rs.length),
        expand_type (ms.get ⟨i, hm⟩) = .ok (rs.get ⟨i, hr⟩) := by
  intro ms
  induction ms with
  | nil =>
    intro rs h
    rw [expandTypeList] at h
    have hrs : ([] : List RustType) = rs := by
      exact Except.ok.inj h
    subst hrs
    exact ⟨rfl, fun i hm _ => absurd hm (Nat.not_lt_zero i)⟩
  | cons t ts ih =>
    intro rs h
    rw [expandTypeList] at h
    cases hthead : expand_type t with
    | error e => rw [hthead] at h; exact absurd h (by simp)
    | ok a =>
      cases htail : expandTypeList ts with
      | error e => rw [hthead, htail] at h; exact absurd h (by simp)
      | ok b =>
        rw [hthead, htail] at h
        simp only at h
        have hrs : a :: b = rs := Except.ok.inj h
        subst hrs
        obtain ⟨hlen, hidx⟩ := ih b htail
        refine ⟨by simp [hlen], ?_⟩
        intro i hm hr
        cases i with
        | zero => exact hthead
        | succ j =>
          exact hidx j (Nat.lt_of_succ_lt_succ hm) (Nat.lt_of_succ_lt_succ hr)

/-- C6 (as stated, refuted): a `Struct` with one member — a member list that
is not empty — can still fail to expand, because the member itself is an
empty composite; so "with at least one member the expansion succeeds" is
false as stated. -/
theorem expand_type_nonempty_composite_can_fail :
    expand_type (.Struct [.Struct []]) = .error .InvalidData ∧
      ([ParamType.Struct []] : List ParamType) ≠ [] :=
  ⟨rfl, by simp⟩

/-- C6 (amended): expanding a `Struct`, `Enum` or `Tuple` with an empty
member list fails with the invalid-composite error (`Error::InvalidData`),
and with at least one member whose expansions all succeed the expansion
succeeds, mapping every member in declaration order. -/
theorem expand_type_composite_spec :
    (expand_type (.Struct []) = .error .InvalidData ∧
      expand_type (.Enum []) = .error .InvalidData ∧
      expand_type (.Tuple []) = .error .InvalidData) ∧
    ∀ (ms : List ParamType) (rs : List RustType), ms ≠ [] →
      expandTypeList ms = .ok rs →
      expand_type (.Struct ms) = .ok (.unnamedTuple rs) ∧
      expand_type (.Enum ms) = .ok (.unnamedTuple rs) ∧
      expand_type (.Tuple ms) = .ok (.unnamedTuple rs) ∧
      rs.length = ms.length ∧
      ∀ (i : Nat) (hm : i < ms.length) (hr : i < rs.length),
        expand_type (ms.get ⟨i, hm⟩) = .ok (rs.get ⟨i, hr⟩) := by
  refine ⟨⟨rfl, rfl, rfl⟩, ?_⟩
  intro ms rs hne hok
  have hempty : ms.isEmpty = false := by
    cases ms with
    | nil => exact absurd rfl hne
    | cons t ts => rfl
  obtain ⟨hlen, hidx⟩ := expandTypeList_ok ms rs hok
  refine ⟨?_, ?_, ?_, hlen, hidx⟩
  · rw [expand_type, hempty, hok]; rfl
  · rw [expand_type, hempty, hok]; rfl
  · rw [expand_type, hempty, hok]; rfl

/-- Witness for the amended C6: a two-member struct expands to the
two-component Rust tuple. -/
theorem expand_type_composite_witness :
    expand_type (.Struct [ParamType.U8, ParamType.Bool]) =
        .ok (.unnamedTuple [RustType.u8, RustType.bool]) ∧
    expand_type (.Enum [ParamType.U8, ParamType.Bool]) =
        .ok (.unnamedTuple [RustType.u8, RustType.bool]) ∧
    expand_type (.Tuple [ParamType.U8, ParamType.Bool]) =
        .ok (.unnamedTuple [RustType.u8, RustType.bool]) ∧
    ([RustType.u8, RustType.bool] : List RustType).length =
        ([ParamType.U8, ParamType.Bool] : List ParamType).length ∧
    ∀ (i : Nat) (hm : i < ([ParamType.U8, ParamType.Bool] : List ParamType).length)
      (hr : i < ([RustType.u8, RustType.bool] : List RustType).length),
      expand_type (([ParamType.U8, ParamType.Bool] : List ParamType).get ⟨i, hm⟩) =
        .ok (([RustType.u8, RustType.bool] : List RustType).get ⟨i, hr⟩) :=
  expand_type_composite_spec.2 [ParamType.U8, ParamType.Bool]
    [RustType.u8, RustType.bool] (by simp) rfl

/-! ## Claims C7–C9: the Token → ParamType conversion -/

/-- C7 (as stated, refuted): `Token::Byte` does not convert to
`ParamType::Byte`; it converts to `ParamType::U8`. -/
theorem token_byte_not_param_byte :
    tokenToParamType (Token.Byte 0) = some ParamType.U8 ∧
      tokenToParamType (Token.Byte 0) ≠ some ParamType.Byte :=
  ⟨rfl, fun h => ParamType.noConfusion (Option.some_inj.mp h)⟩

/-- C7 (amended): every scalar token converts to the scalar `ParamType` of
the same kind, except `Token::Byte`, which converts to `ParamType::U8`. -/
theorem token_scalar_to_param_type :
    ∀ (n : Nat) (b : Bool) (bs : List Nat),
      tokenToParamType (Token.U8 n) = some ParamType.U8 ∧
      tokenToParamType (Token.U16 n) = some ParamType.U16 ∧
      tokenToParamType (Token.U32 n) = some ParamType.U32 ∧
      tokenToParamType (Token.U64 n) = some ParamType.U64 ∧
      tokenToParamType (Token.Bool b) = some ParamType.Bool ∧
      tokenToParamType (Token.Byte n) = some ParamType.U8 ∧
      tokenToParamType (Token.B256 bs) = some ParamType.B256 :=
  fun _ _ _ => ⟨rfl, rfl, rfl, rfl, rfl, rfl, rfl⟩

theorem tokenListToParamTypes_ok :
    ∀ (ts : List Token) (ps : List ParamType),
      tokenListToParamTypes ts = some ps →
      ps.length = ts.length ∧
      ∀ (i : Nat) (ht : i < ts.length) (hp : i < ps.length),
        tokenToParamType (ts.get ⟨i, ht⟩) = some (ps.get ⟨i, hp⟩) := by
  intro ts
  induction ts with
  | nil =>
    intro ps h
    rw [tokenListToParamTypes] at h
    have hps : ([] : List ParamType) = ps := Option.some_inj.mp h
    subst hps
    exact ⟨rfl, fun i ht _ => absurd ht (Nat.not_lt_zero i)⟩
  | cons t ts ih =>
    intro ps h
    rw [tokenListToParamTypes] at h
    cases hthead : tokenToParamType t with
    | none => rw [hthead] at h; exact absurd h (by simp)
    | some a =>
      cases htail : tokenListToParamTypes ts with
      | none => rw [hthead, htail] at h; exact absurd h (by simp)
      | some b =>
        rw [hthead, htail] at h
        simp only at h
        have hps : a :: b = ps := Option.some_inj.mp h
        subst hps
        obtain ⟨hlen, hidx⟩ := ih b htail
        refine ⟨by simp [hlen], ?_⟩
        intro i ht hp
        cases i with
        | zero => exact hthead
        | succ j =>
          exact hidx j (Nat.lt_of_succ_lt_succ ht) (Nat.lt_of_succ_lt_succ hp)

/-- C8: a non-empty array token converts to `ParamType::Array` with length
equal to the token's element count and element type converted from the
*first* element only (two arrays with the same head and the same length
convert identically); the empty array token fails to convert; a string
token's resulting length is its byte length; struct and tuple tokens convert
member-wise to `Struct` and `Tuple`, preserving the member count. -/
theorem token_composite_to_param_type :
    (∀ (t : Token) (ts : List Token),
      tokenToParamType (Token.Array (t :: ts)) =
        (tokenToParamType t).map fun pt => ParamType.Array pt (ts.length + 1)) ∧
    (∀ (t : Token) (ts ts' : List Token), ts.length = ts'.length →
      tokenToParamType (Token.Array (t :: ts)) =
        tokenToParamType (Token.Array (t :: ts'))) ∧
    tokenToParamType (Token.Array []) = none ∧
    (∀ s : String,
      tokenToParamType (Token.String s) = some (ParamType.String s.utf8ByteSize)) ∧
    (∀ members : List Token,
      tokenToParamType (Token.Struct members) =
        (tokenListToParamTypes members).map ParamType.Struct) ∧
    (∀ members : List Token,
      tokenToParamType (Token.Tuple members) =
        (tokenListToParamTypes members).map ParamType.Tuple) ∧
    (∀ (members : List Token) (ps : List ParamType),
      tokenListToParamTypes members = some ps → ps.length = members.length) := by
  refine ⟨fun t ts => rfl, ?_, rfl, fun s => rfl, fun members => rfl,
    fun members => rfl, fun members ps h => (tokenListToParamTypes_ok members ps h).1⟩
  intro t ts ts' hlen
  show (tokenToParamType t).map _ = (tokenToParamType t).map _
  rw [hlen]

/-- Witness for C8: a concrete two-element struct token converts member-wise
and keeps the member count. -/
theorem token_composite_witness :
    tokenToParamType (Token.Array [Token.U8 7, Token.U8 9]) =
        some (ParamType.Array ParamType.U8 2) ∧
    ([ParamType.U8, ParamType.Bool] : List ParamType).length =
        ([Token.U8 1, Token.Bool true] : List Token).length :=
  ⟨((token_composite_to_param_type.1 (Token.U8 7) [Token.U8 9]).trans rfl),
    token_composite_to_param_type.2.2.2.2.2.2 [Token.U8 1, Token.Bool true]
      [ParamType.U8, ParamType.Bool] rfl⟩

/-- C9: an enum token converts to the empty `Enum` placeholder: the
conversion does not recover the variant-type list (lossy direction). -/
theorem token_enum_to_empty_enum :
    ∀ (d : Nat) (v : Token),
      tokenToParamType (Token.Enum d v) = some (ParamType.Enum []) :=
  fun _ _ => rfl

/-! ## Claim C10: the custom-type test is a substring test -/

/-- C10: a property is classified as custom exactly when its type tag
contains the struct keyword or the enum keyword anywhere as a substring; the
keyword need not be a prefix — the tag `constructor`, which merely contains
`struct` inside another word, is classified as custom. -/
theorem is_custom_type_substring_spec :
    (∀ p : Property,
      is_custom_type p = true ↔
        (STRUCT_KEYWORD.data <:+: p.type_field.data ∨
          ENUM_KEYWORD.data <:+: p.type_field.data)) ∧
    is_custom_type (Property.mk "x" "constructor" none) = true ∧
    strStartsWith STRUCT_KEYWORD "constructor" = false ∧
    strStartsWith ENUM_KEYWORD "constructor" = false := by
  refine ⟨?_, by decide, by decide, by decide⟩
  intro p
  rw [is_custom_type, Bool.or_eq_true, strContains_iff, strContains_iff, or_comm]
